import Mathlib

/-!
Shallow embedding of the ccb-essentials path utilities from
`filesystem.py` (`common_root`, `common_ancestor`, `common_parent`, `tree`)
and of the `DelayedKeyboardInterrupt` guard from `signal.py`, together with
theorems checking the specification's claims about them.

A `pathlib.Path` in canonical form is modelled as an absoluteness flag plus
the list of segments after the root; the filesystem the code observes is a
function telling which paths are directories plus a directory listing.
-/

/-- A `pathlib.Path` value in canonical form: an absoluteness flag and the
list of path segments after the root.  `⟨false, []⟩` is `Path('.')` and
`⟨true, []⟩` is `Path('/')`. -/
structure PyPath where
  isAbs : Bool
  segs : List String
deriving DecidableEq

/-- `p / s`: append one segment, as Python's `path / 'x'`. -/
def PyPath.child (p : PyPath) (s : String) : PyPath := ⟨p.isAbs, p.segs ++ [s]⟩

/-- `Path.parent`: drop the final segment; the parent of `/` is `/` and the
parent of `.` is `.`, as in `pathlib`. -/
def PyPath.parent (p : PyPath) : PyPath := ⟨p.isAbs, p.segs.dropLast⟩

/-- `Path.name`: the final segment, `""` for `/` and for `.`. -/
def PyPath.name (p : PyPath) : String := p.segs.getLast?.getD ""

/-- `Path('/')`. -/
def PyPath.root : PyPath := ⟨true, []⟩

/-- `Path()`, that is `Path('.')`. -/
def PyPath.cur : PyPath := ⟨false, []⟩

/-- `list(reversed(p.parents))`: the strict ancestors of `p` ordered from
the root (or `.`) down to `p.parent`; empty for `/` and for `.`. -/
def revParents (p : PyPath) : List PyPath :=
  (List.range p.segs.length).map fun n => ⟨p.isAbs, p.segs.take n⟩

/-- The filesystem as the code observes it: which paths are directories
(`Path.is_dir`), and a directory listing (`Path.iterdir`, used by `tree`). -/
structure FS where
  isDir : PyPath → Bool
  iterdir : PyPath → List PyPath

/-- The loop of `common_root`: walk the two reversed parent lists in
lock-step, remembering the last agreeing entry and stopping at the first
mismatch. -/
def crLoop : List PyPath → List PyPath → PyPath → PyPath
  | x :: xs, y :: ys, r => if x = y then crLoop xs ys x else r
  | _, _, r => r

/-- `common_root(a, b)` from `filesystem.py`: `None` unless both paths are
absolute; a directory argument gets a synthetic segment `"x"` appended;
the result is the deepest common entry of the two reversed parent lists,
starting from `Path()`. -/
def common_root (fs : FS) (a b : PyPath) : Option PyPath :=
  if !a.isAbs || !b.isAbs then none
  else
    let a1 := if fs.isDir a then a.child "x" else a
    let b1 := if fs.isDir b then b.child "x" else b
    some (crLoop (revParents a1) (revParents b1) PyPath.cur)

/-- The per-path normalization done by `common_ancestor`:
`if not path.is_dir(): path = path.parent`. -/
def normPath (fs : FS) (p : PyPath) : PyPath := if fs.isDir p then p else p.parent

/-- The loop of `common_ancestor`, with the running `common` as explicit
state (`none` means no path has been consumed yet). -/
def caGo (fs : FS) : Option PyPath → List PyPath → Option PyPath
  | common, [] => common
  | common, p :: rest =>
    match common with
    | none => caGo fs (some (normPath fs p)) rest
    | some c =>
      if c = normPath fs p then caGo fs (some c) rest
      else
        match common_root fs c (normPath fs p) with
        | none => none
        | some r => caGo fs (some r) rest

/-- `common_ancestor(paths)` from `filesystem.py`. -/
def common_ancestor (fs : FS) (paths : List PyPath) : Option PyPath :=
  caGo fs none paths

/-- The loop of `common_parent`, with the running `common` as explicit
state. -/
def cpGo : Option PyPath → List PyPath → Option PyPath
  | common, [] => common
  | common, p :: rest =>
    match common with
    | none => cpGo (some p.parent) rest
    | some c => if c = p.parent then cpGo (some c) rest else none

/-- `common_parent(paths)` from `filesystem.py`. -/
def common_parent (paths : List PyPath) : Option PyPath := cpGo none paths

/-- Longest common initial run of two segment lists (the ancestor walk of
`common_root`, expressed on raw segment lists). -/
def lcp : List String → List String → List String
  | x :: xs, y :: ys => if x = y then x :: lcp xs ys else []
  | _, _ => []

/-- All initial runs (including the full list) of a segment list, as paths:
`prefPaths ab acc l` lists `⟨ab, acc⟩`, `⟨ab, acc ++ [l₀]⟩`, …,
`⟨ab, acc ++ l⟩`. -/
def prefPaths (ab : Bool) : List String → List String → List PyPath
  | acc, [] => [⟨ab, acc⟩]
  | acc, s :: rest => ⟨ab, acc⟩ :: prefPaths ab (acc ++ [s]) rest

/-- The step of the fold described by the specification for
`common_ancestor`, expressed on segment lists: the first list is taken as
is, later ones are combined by longest-common-initial-run. -/
def lcpStep (acc : Option (List String)) (s : List String) : Option (List String) :=
  some (match acc with | none => s | some t => lcp t s)

/-- Modelled from the spec: `common_ancestor` described as a plain
left-to-right pairwise fold of `common_root` over the normalized paths,
short-circuiting to the absent result as soon as a pairwise reduction
fails.  Used as the comparison point for the refinement claim about the
fold structure of `common_ancestor`. -/
def caFoldGo (fs : FS) : Option PyPath → List PyPath → Option PyPath
  | acc, [] => acc
  | acc, p :: rest =>
    match acc with
    | none => caFoldGo fs (some (normPath fs p)) rest
    | some c =>
      match common_root fs c (normPath fs p) with
      | none => none
      | some r => caFoldGo fs (some r) rest

/-- Modelled from the spec: the pairwise fold of `common_root` over a whole
sequence. -/
def commonAncestorFold (fs : FS) (paths : List PyPath) : Option PyPath :=
  caFoldGo fs none paths

def _space : String := "    "
def _branch : String := "│   "
def _tee : String := "├── "
def _last : String := "└── "

/-- Rendering of a path as a string, for the sort order of `sorted`. -/
def pathStr (p : PyPath) : String :=
  if p.isAbs then "/" ++ String.intercalate "/" p.segs
  else if p.segs.isEmpty then "." else String.intercalate "/" p.segs

/-- Lexicographic comparison of character lists. -/
def charsLe : List Char → List Char → Bool
  | [], _ => true
  | _ :: _, [] => false
  | a :: xs, b :: ys => if a = b then charsLe xs ys else decide (a < b)

/-- The path ordering used by `sorted(root.iterdir())`: lexicographic on
the rendered path string. -/
def pathLe (a b : PyPath) : Bool := charsLe (pathStr a).data (pathStr b).data

def insertPath (p : PyPath) : List PyPath → List PyPath
  | [] => [p]
  | q :: rest => if pathLe p q then p :: q :: rest else q :: insertPath p rest

/-- `sorted` on paths (stable; path-string keys are injective, so any
correct sort agrees). -/
def sortPaths : List PyPath → List PyPath
  | [] => []
  | p :: rest => insertPath p (sortPaths rest)

/-- The `for i, path in enumerate(contents)` body of `tree`: the last entry
gets the end-marker connector, earlier ones the continuation connector, and
directory entries recurse through `recur` with the extended accumulated
branch string. -/
def treeKids (fs : FS) (recur : PyPath → String → List String) (pre : String) :
    List PyPath → List String
  | [] => []
  | [p] =>
    (pre ++ _last ++ p.name) ::
      (if fs.isDir p then recur p (pre ++ _space) else [])
  | p :: rest =>
    (pre ++ _tee ++ p.name) ::
      ((if fs.isDir p then recur p (pre ++ _branch) else []) ++
        treeKids fs recur pre rest)

/-- `tree(root, prefix)` from `filesystem.py`, collected into a list, with
fuel bounding the recursion depth (the Python generator recurses on
directory nesting, which our explicit filesystem does not bound). -/
def tree (fs : FS) : Nat → PyPath → String → List String
  | 0, root, _ => if fs.isDir root then [] else [root.name]
  | fuel + 1, root, pre =>
    if fs.isDir root then
      (if pre = "" then [root.name] else []) ++
        treeKids fs (tree fs fuel) pre (sortPaths (fs.iterdir root))
    else [root.name]

/-- The `DelayedKeyboardInterrupt` instance state: its `signal_received`
slot, either `None` or the `(sig, frame)` pair of a recorded delivery
(frames are modelled by an identifier). -/
structure DelayedKeyboardInterrupt where
  signal_received : Option (Nat × Nat)
deriving DecidableEq

/-- `DelayedKeyboardInterrupt.handler`: overwrite `signal_received` with
the delivered `(sig, frame)` and return without raising. -/
def DelayedKeyboardInterrupt.handler (d : DelayedKeyboardInterrupt)
    (sig frame : Nat) : DelayedKeyboardInterrupt :=
  let _ := d
  ⟨some (sig, frame)⟩

/-- Which handler is installed for the interrupt signal: the previously
installed one, or the guard's recording handler. -/
inductive SigHandler
  | oldH
  | guardH
deriving DecidableEq

/-- Process-level state: the installed handler, the guard object, and the
list of invocations of the previously installed handler (the observable
effect of the interrupt). -/
structure ProcState where
  installed : SigHandler
  guard : DelayedKeyboardInterrupt
  oldCalls : List (Nat × Nat)
deriving DecidableEq

/-- Asynchronous delivery of the interrupt signal: run whichever handler is
currently installed. -/
def deliverSignal (s : ProcState) (e : Nat × Nat) : ProcState :=
  match s.installed with
  | .guardH => { s with guard := s.guard.handler e.1 e.2 }
  | .oldH => { s with oldCalls := s.oldCalls ++ [e] }

/-- `__enter__`: save the installed handler and install the guard's
handler; the guard object starts with `signal_received = None`. -/
def enterGuard (s : ProcState) : ProcState × SigHandler :=
  ({ s with installed := .guardH, guard := ⟨none⟩ }, s.installed)

/-- `__exit__`: restore the saved handler first; then, if a delivery was
recorded while armed, invoke the saved handler with the recorded
arguments. -/
def exitGuard (s : ProcState) (saved : SigHandler) : ProcState :=
  let s1 := { s with installed := saved }
  match s.guard.signal_received with
  | none => s1
  | some e =>
    match saved with
    | .oldH => { s1 with oldCalls := s1.oldCalls ++ [e] }
    | .guardH => { s1 with guard := s1.guard.handler e.1 e.2 }

/-- Initial process state: the previous handler installed, no guard record,
no deliveries observed. -/
def initState : ProcState := ⟨.oldH, ⟨none⟩, []⟩

/-- One complete guarded run: enter the guard, receive `events` while
armed, exit the guard. -/
def runGuarded (events : List (Nat × Nat)) : ProcState :=
  let es := enterGuard initState
  exitGuard (events.foldl deliverSignal es.1) es.2

/-- The directories of the concrete example filesystem used by the
specification's concrete cases. -/
def exDirs : List PyPath :=
  [⟨true, []⟩, ⟨true, ["usr"]⟩, ⟨true, ["usr", "local"]⟩,
   ⟨true, ["usr", "local", "bin"]⟩, ⟨true, ["usr", "bin"]⟩,
   ⟨true, ["bin"]⟩, ⟨true, ["usr", "lib"]⟩]

/-- Concrete filesystem for the specification's concrete cases: platform
root `/`, files `/usr/local/bin/bbedit`, `/usr/bin/rez`, `/usr/lib/x`,
`/usr/local/y`, and directory `/bin` containing files `echo`, `kill`,
`ls`. -/
def exFS : FS where
  isDir p := exDirs.contains p
  iterdir p :=
    if p = ⟨true, ["bin"]⟩ then
      [⟨true, ["bin", "echo"]⟩, ⟨true, ["bin", "kill"]⟩, ⟨true, ["bin", "ls"]⟩]
    else []

/-- A filesystem containing only the root directory: every other path is
absent, so `is_dir` is false everywhere except `/`. -/
def rootOnlyFS : FS where
  isDir p := p = PyPath.root
  iterdir _ := []

/-- A filesystem in which every absolute path is a directory. -/
def allDirFS : FS where
  isDir p := p.isAbs
  iterdir _ := []

/-- Filesystem for the self-comparison counterexample: `/` and the
directory `/usr` exist. -/
def cex2FS : FS where
  isDir p := p = PyPath.root || p = ⟨true, ["usr"]⟩
  iterdir _ := []

/-! ### Helper lemmas on segment lists and the `common_root` walk -/

theorem lcp_self : ∀ s : List String, lcp s s = s := by
  intro s
  induction s with
  | nil => rfl
  | cons x t ih => simp [lcp, ih]

theorem lcp_comm : ∀ s t : List String, lcp s t = lcp t s := by
  intro s
  induction s with
  | nil => intro t; cases t <;> rfl
  | cons x xs ih =>
    intro t
    cases t with
    | nil => rfl
    | cons y ys =>
      by_cases h : x = y
      · subst h; simp [lcp, ih]
      · simp [lcp, h, Ne.symm h]

theorem lcp_assoc : ∀ s t u : List String, lcp (lcp s t) u = lcp s (lcp t u) := by
  intro s
  induction s with
  | nil => intro t u; cases t <;> cases u <;> rfl
  | cons x xs ih =>
    intro t u
    cases t with
    | nil => cases u <;> rfl
    | cons y ys =>
      cases u with
      | nil => by_cases h : x = y <;> simp [lcp, h]
      | cons z zs =>
        by_cases hxy : x = y
        · subst hxy
          by_cases hxz : x = z
          · subst hxz; simp [lcp, ih]
          · simp [lcp, hxz]
        · by_cases hyz : y = z
          · subst hyz; simp [lcp, hxy]
          · simp [lcp, hxy, hyz]

theorem lcp_take : ∀ t s : List String, lcp t s = s.take (lcp t s).length := by
  intro t
  induction t with
  | nil => intro s; cases s <;> rfl
  | cons x xs ih =>
    intro s
    cases s with
    | nil => rfl
    | cons y ys =>
      by_cases h : x = y
      · subst h; simp only [lcp, if_pos rfl, List.length_cons, List.take_succ_cons]
        exact congrArg (x :: ·) (ih ys)
      · simp [lcp, h]

theorem prefPaths_eq (ab : Bool) :
    ∀ (t acc : List String),
      prefPaths ab acc t =
        (List.range (t.length + 1)).map fun n => ⟨ab, acc ++ t.take n⟩ := by
  intro t
  induction t with
  | nil => intro acc; simp [prefPaths]
  | cons s t ih =>
    intro acc
    rw [prefPaths, ih (acc ++ [s])]
    conv_rhs => rw [List.length_cons, List.range_succ_eq_map, List.map_cons, List.map_map]
    congr 1
    · simp
    · congr 1
      funext n
      simp [Function.comp, List.take_succ_cons, List.append_assoc]

theorem revParents_concat (ab : Bool) (l : List String) (s : String) :
    revParents ⟨ab, l ++ [s]⟩ = prefPaths ab [] l := by
  rw [prefPaths_eq]
  unfold revParents
  simp only [List.length_append, List.length_cons, List.length_nil, List.nil_append]
  apply List.map_congr_left
  intro n hn
  have hle : n ≤ l.length := Nat.lt_succ_iff.mp (List.mem_range.mp hn)
  rw [List.take_append_of_le_length hle]

theorem crLoop_comm : ∀ (xs ys : List PyPath) (r : PyPath),
    crLoop xs ys r = crLoop ys xs r := by
  intro xs
  induction xs with
  | nil => intro ys r; cases ys <;> rfl
  | cons x xs ih =>
    intro ys r
    cases ys with
    | nil => rfl
    | cons y ys =>
      by_cases h : x = y
      · subst h; simp [crLoop, ih]
      · simp [crLoop, h, Ne.symm h]

theorem crLoop_mem : ∀ (xs ys : List PyPath) (r : PyPath),
    crLoop xs ys r = r ∨ crLoop xs ys r ∈ xs := by
  intro xs
  induction xs with
  | nil => intro ys r; left; cases ys <;> rfl
  | cons x xs ih =>
    intro ys r
    cases ys with
    | nil => left; rfl
    | cons y ys =>
      by_cases h : x = y
      · simp only [crLoop, if_pos h]
        rcases ih ys x with heq | hmem
        · right; rw [heq]; exact List.mem_cons_self x xs
        · right; exact List.mem_cons_of_mem x hmem
      · left; simp [crLoop, h]

theorem crLoop_prefPaths (ab : Bool) :
    ∀ (xs ys acc : List String) (r : PyPath),
      crLoop (prefPaths ab acc xs) (prefPaths ab acc ys) r = ⟨ab, acc ++ lcp xs ys⟩ := by
  intro xs
  induction xs with
  | nil =>
    intro ys acc r
    cases ys <;> simp [prefPaths, crLoop, lcp]
  | cons x xs ih =>
    intro ys acc r
    cases ys with
    | nil => simp [prefPaths, crLoop, lcp]
    | cons y ys =>
      by_cases h : x = y
      · subst h
        simp only [prefPaths, crLoop, if_pos rfl]
        rw [ih ys (acc ++ [x])]
        simp [lcp, List.append_assoc]
      · have hne : (⟨ab, acc ++ [x]⟩ : PyPath) ≠ ⟨ab, acc ++ [y]⟩ := by
          intro hh
          apply h
          have := congrArg PyPath.segs hh
          simpa [List.append_right_inj] using this
        simp only [prefPaths, crLoop, if_pos rfl]
        cases xs <;> cases ys <;> simp [prefPaths, crLoop, hne, lcp, h]

/-! ### Structural lemmas about `common_root` -/

theorem common_root_dirs (fs : FS) (a b : PyPath) (ha : a.isAbs = true)
    (hb : b.isAbs = true) (hda : fs.isDir a = true) (hdb : fs.isDir b = true) :
    common_root fs a b = some ⟨true, lcp a.segs b.segs⟩ := by
  cases a with
  | mk aab asegs =>
    cases b with
    | mk bab bsegs =>
      simp only at ha hb
      subst ha; subst hb
      rw [common_root]
      simp only [Bool.not_true, Bool.or_self, Bool.false_eq_true, if_false,
        hda, hdb, if_pos, PyPath.child]
      rw [revParents_concat, revParents_concat, crLoop_prefPaths]
      simp

theorem common_root_self_dir (fs : FS) (a : PyPath) (ha : a.isAbs = true)
    (hd : fs.isDir a = true) : common_root fs a a = some a := by
  rw [common_root_dirs fs a a ha ha hd hd, lcp_self]
  cases a with
  | mk aab asegs => simp only at ha; subst ha; rfl

/-- C7: for all absolute paths a and b, `common_root(a, b)` equals
`common_root(b, a)`.  Proved for all paths (the restriction to absolute
inputs is not needed: on non-absolute input both sides are `None`). -/
theorem c7_common_root_symm (fs : FS) (a b : PyPath) :
    common_root fs a b = common_root fs b a := by
  by_cases ha : a.isAbs = true
  · by_cases hb : b.isAbs = true
    · rw [common_root, common_root]
      simp only [ha, hb, Bool.not_true, Bool.or_self, Bool.false_eq_true, if_false]
      rw [crLoop_comm]
    · simp [common_root, ha, hb]
  · by_cases hb : b.isAbs = true
    · simp [common_root, ha, hb]
    · simp [common_root, ha, hb]

/-- C2 counterexample: for the absolute directory `/usr` (on a filesystem
where `/` and `/usr` are directories), `common_root(/usr, /usr)` returns
`/usr` itself, not its parent directory `/`. -/
theorem c2_counterexample :
    (⟨true, ["usr"]⟩ : PyPath).isAbs = true ∧
    common_root cex2FS ⟨true, ["usr"]⟩ ⟨true, ["usr"]⟩ ≠
      some (PyPath.parent ⟨true, ["usr"]⟩) ∧
    common_root cex2FS ⟨true, ["usr"]⟩ ⟨true, ["usr"]⟩ = some ⟨true, ["usr"]⟩ := by
  decide

/-- C2 (amended): for every absolute path `a`, `common_root(a, a)` equals
`a` itself when `a` is a directory, and `a`'s parent directory when `a` is
not a directory (assuming the degenerate case that `a` is the filesystem
root only arises when the root is a directory). -/
theorem c2_common_root_self (fs : FS) (a : PyPath) (ha : a.isAbs = true)
    (hroot : a.segs = [] → fs.isDir a = true) :
    common_root fs a a = some (if fs.isDir a = true then a else a.parent) := by
  by_cases hd : fs.isDir a = true
  · rw [if_pos hd]
    exact common_root_self_dir fs a ha hd
  · rw [if_neg hd]
    have hsegs : a.segs ≠ [] := fun h => hd (hroot h)
    rcases List.eq_nil_or_concat a.segs with h0 | ⟨l, x, hlx⟩
    · exact absurd h0 hsegs
    · cases a with
      | mk aab asegs =>
        simp only at ha hlx
        subst ha
        rw [List.concat_eq_append] at hlx
        subst hlx
        have hd' : fs.isDir ⟨true, l ++ [x]⟩ = false := by
          simpa using hd
        rw [common_root]
        simp only [Bool.not_true, Bool.or_self, Bool.false_eq_true, if_false, hd']
        rw [revParents_concat, crLoop_prefPaths, lcp_self]
        simp [PyPath.parent, List.dropLast_concat]

/-- C2 witness: a concrete file `/usr` on a filesystem whose only
directory is the root; its self-`common_root` is its parent `/`. -/
theorem c2_witness :
    common_root rootOnlyFS ⟨true, ["usr"]⟩ ⟨true, ["usr"]⟩ =
      some (if rootOnlyFS.isDir ⟨true, ["usr"]⟩ = true then ⟨true, ["usr"]⟩
        else PyPath.parent ⟨true, ["usr"]⟩) :=
  c2_common_root_self rootOnlyFS ⟨true, ["usr"]⟩ (by decide) (by decide)

theorem normPath_isAbs (fs : FS) (p : PyPath) : (normPath fs p).isAbs = p.isAbs := by
  rw [normPath]
  by_cases h : fs.isDir p = true <;> simp [h, PyPath.parent]

theorem revParents_cons_shape (p : PyPath) (hp : p.segs ≠ []) :
    ∃ t, revParents p = ⟨p.isAbs, []⟩ :: t ∧ ∀ q ∈ t, q.isAbs = p.isAbs := by
  cases p with
  | mk ab segs =>
    cases segs with
    | nil => exact absurd rfl hp
    | cons s ts =>
      rw [revParents]
      simp only [List.length_cons, List.range_succ_eq_map, List.map_cons, List.map_map]
      refine ⟨List.map ((fun n => (⟨ab, List.take n (s :: ts)⟩ : PyPath)) ∘ Nat.succ)
        (List.range ts.length), ?_, ?_⟩
      · simp only [List.take_zero]
      · intro q hq
        obtain ⟨n, _, rfl⟩ := List.mem_map.mp hq
        rfl

theorem common_root_abs_eq (fs : FS) (a b : PyPath) (ha : a.isAbs = true)
    (hb : b.isAbs = true) :
    common_root fs a b =
      some (crLoop (revParents (if fs.isDir a = true then a.child "x" else a))
        (revParents (if fs.isDir b = true then b.child "x" else b)) PyPath.cur) := by
  rw [common_root]
  simp [ha, hb]

theorem extendPath_facts (fs : FS) (a : PyPath) (ha : a.isAbs = true)
    (hroot : fs.isDir PyPath.root = true) :
    (if fs.isDir a = true then a.child "x" else a).segs ≠ [] ∧
    (if fs.isDir a = true then a.child "x" else a).isAbs = true := by
  by_cases hd : fs.isDir a = true
  · simp [hd, PyPath.child, ha]
  · simp only [if_neg hd]
    refine ⟨?_, ha⟩
    intro h0
    apply hd
    have hr : a = PyPath.root := by
      cases a with
      | mk ab segs =>
        simp only at ha h0
        subst ha
        subst h0
        rfl
    rw [hr]
    exact hroot

theorem crLoop_revParents_abs (x y : PyPath) (hx : x.isAbs = true)
    (hy : y.isAbs = true) (hxs : x.segs ≠ []) (hys : y.segs ≠ []) :
    (crLoop (revParents x) (revParents y) PyPath.cur).isAbs = true := by
  obtain ⟨t1, hx1, hmem1⟩ := revParents_cons_shape x hxs
  obtain ⟨t2, hy1, hmem2⟩ := revParents_cons_shape y hys
  rw [hx1, hy1, hx, hy]
  have hstep : crLoop ((⟨true, []⟩ : PyPath) :: t1) ((⟨true, []⟩ : PyPath) :: t2)
      PyPath.cur = crLoop t1 t2 ⟨true, []⟩ := by
    show (if (⟨true, []⟩ : PyPath) = ⟨true, []⟩ then crLoop t1 t2 ⟨true, []⟩
      else PyPath.cur) = _
    rw [if_pos rfl]
  rw [hstep]
  rcases crLoop_mem t1 t2 ⟨true, []⟩ with heq | hmem
  · rw [heq]
  · rw [hmem1 _ hmem, hx]

/-- C9: `common_root` never returns the absent value on two absolute
paths: the absent result occurs exactly when at least one input is not
absolute, and for absolute inputs the returned path is absolute (at least
the filesystem root), assuming the filesystem root is a directory. -/
theorem c9_common_root_total (fs : FS) (a b : PyPath)
    (hroot : fs.isDir PyPath.root = true) :
    (common_root fs a b = none ↔ (a.isAbs = false ∨ b.isAbs = false)) ∧
    (a.isAbs = true → b.isAbs = true →
      ∃ r, common_root fs a b = some r ∧ r.isAbs = true) := by
  constructor
  · cases ha : a.isAbs <;> cases hb : b.isAbs <;> simp [common_root, ha, hb]
  · intro ha hb
    obtain ⟨hane, haab⟩ := extendPath_facts fs a ha hroot
    obtain ⟨hbne, hbab⟩ := extendPath_facts fs b hb hroot
    refine ⟨_, common_root_abs_eq fs a b ha hb, ?_⟩
    exact crLoop_revParents_abs _ _ haab hbab hane hbne

/-- C9 witness: two concrete absolute file paths on the root-only
filesystem; `common_root` yields an absolute result, never `None`. -/
theorem c9_witness :
    (common_root rootOnlyFS ⟨true, ["u", "a"]⟩ ⟨true, ["v"]⟩ = none ↔
      ((⟨true, ["u", "a"]⟩ : PyPath).isAbs = false ∨
        (⟨true, ["v"]⟩ : PyPath).isAbs = false)) ∧
    ((⟨true, ["u", "a"]⟩ : PyPath).isAbs = true →
      (⟨true, ["v"]⟩ : PyPath).isAbs = true →
      ∃ r, common_root rootOnlyFS ⟨true, ["u", "a"]⟩ ⟨true, ["v"]⟩ = some r ∧
        r.isAbs = true) :=
  c9_common_root_total rootOnlyFS ⟨true, ["u", "a"]⟩ ⟨true, ["v"]⟩ (by decide)

theorem caGo_eq_caFoldGo (fs : FS) :
    ∀ (l : List PyPath) (acc : Option PyPath),
      (∀ p ∈ l, p.isAbs = true ∧ fs.isDir (normPath fs p) = true) →
      caGo fs acc l = caFoldGo fs acc l := by
  intro l
  induction l with
  | nil => intro acc _; rfl
  | cons p rest ih =>
    intro acc h
    obtain ⟨hp_abs, hp_dir⟩ := h p (List.mem_cons_self p rest)
    have hrest := fun q hq => h q (List.mem_cons_of_mem p hq)
    cases acc with
    | none =>
      simp only [caGo, caFoldGo]
      exact ih _ hrest
    | some c =>
      by_cases hc : c = normPath fs p
      · have hq_abs : (normPath fs p).isAbs = true := by
          rw [normPath_isAbs]; exact hp_abs
        have hself : common_root fs (normPath fs p) (normPath fs p) =
            some (normPath fs p) := common_root_self_dir fs _ hq_abs hp_dir
        simp only [caGo, caFoldGo, if_pos hc, hc, hself]
        exact ih _ hrest
      · simp only [caGo, caFoldGo, if_neg hc]
        cases hcr : common_root fs c (normPath fs p) with
        | none => rfl
        | some r => exact ih _ hrest

/-- C3: `common_ancestor` computes the left-to-right pairwise fold of
`common_root` over the normalized sequence, short-circuiting to the absent
result as soon as any pairwise reduction yields absent: it equals the plain
pairwise fold described by the specification.  (The loop's only other
shortcut — skipping a reduction when the normalized path equals the running
value — does not change any result, and a reduction with a path outside the
running value always changes the value, so no further stopping rule is
observable.)  Hypotheses: every input is absolute and normalizes to a
directory. -/
theorem c3_common_ancestor_fold (fs : FS) (paths : List PyPath)
    (h : ∀ p ∈ paths, p.isAbs = true ∧ fs.isDir (normPath fs p) = true) :
    common_ancestor fs paths = commonAncestorFold fs paths :=
  caGo_eq_caFoldGo fs paths none h

/-- C3 witness: a concrete two-path sequence on the concrete example
filesystem; the loop and the spec's fold agree. -/
theorem c3_witness :
    common_ancestor exFS [⟨true, ["bin", "echo"]⟩, ⟨true, ["usr", "lib", "x"]⟩] =
      commonAncestorFold exFS [⟨true, ["bin", "echo"]⟩, ⟨true, ["usr", "lib", "x"]⟩] :=
  c3_common_ancestor_fold exFS _ (by decide)

theorem cpGo_some_eq (c r : PyPath) :
    ∀ l : List PyPath,
      (cpGo (some c) l = some r ↔ (r = c ∧ ∀ p ∈ l, p.parent = c)) := by
  intro l
  induction l with
  | nil => simp [cpGo, eq_comm]
  | cons p rest ih =>
    by_cases h : c = p.parent
    · simp only [cpGo, if_pos h]
      rw [ih]
      constructor
      · rintro ⟨rfl, hall⟩
        refine ⟨rfl, ?_⟩
        intro q hq
        rcases List.mem_cons.mp hq with rfl | hq'
        · exact h.symm
        · exact hall q hq'
      · rintro ⟨rfl, hall⟩
        exact ⟨rfl, fun q hq => hall q (List.mem_cons_of_mem p hq)⟩
    · simp only [cpGo, if_neg h]
      constructor
      · intro h0; cases h0
      · rintro ⟨rfl, hall⟩
        exact absurd (hall p (List.mem_cons_self p rest)).symm h

/-- C4: for every non-empty sequence of absolute paths, `common_parent`
returns a present result iff all inputs have identical immediate parent
directories, in which case it returns that shared parent; it returns the
absent result otherwise. -/
theorem c4_common_parent (p0 : PyPath) (rest : List PyPath)
    (habs : ∀ p ∈ p0 :: rest, p.isAbs = true) :
    ((common_parent (p0 :: rest)).isSome ↔
      ∀ p ∈ p0 :: rest, p.parent = p0.parent) ∧
    (∀ r, common_parent (p0 :: rest) = some r →
      r = p0.parent ∧ ∀ p ∈ p0 :: rest, p.parent = r) := by
  have hcp : common_parent (p0 :: rest) = cpGo (some p0.parent) rest := rfl
  constructor
  · rw [hcp, Option.isSome_iff_exists]
    constructor
    · rintro ⟨r, hr⟩
      obtain ⟨_, hall⟩ := (cpGo_some_eq p0.parent r rest).mp hr
      intro p hp
      rcases List.mem_cons.mp hp with rfl | hp'
      · rfl
      · exact hall p hp'
    · intro hall
      refine ⟨p0.parent, (cpGo_some_eq p0.parent p0.parent rest).mpr ⟨rfl, ?_⟩⟩
      exact fun q hq => hall q (List.mem_cons_of_mem p0 hq)
  · intro r hr
    rw [hcp] at hr
    obtain ⟨hrc, hall⟩ := (cpGo_some_eq p0.parent r rest).mp hr
    subst hrc
    refine ⟨rfl, ?_⟩
    intro p hp
    rcases List.mem_cons.mp hp with rfl | hp'
    · rfl
    · exact hall p hp'

/-- C4 witness: two concrete sibling files under `/bin`. -/
theorem c4_witness :
    ((common_parent [⟨true, ["bin", "echo"]⟩, ⟨true, ["bin", "kill"]⟩]).isSome ↔
      ∀ p ∈ [(⟨true, ["bin", "echo"]⟩ : PyPath), ⟨true, ["bin", "kill"]⟩],
        p.parent = (⟨true, ["bin", "echo"]⟩ : PyPath).parent) ∧
    (∀ r, common_parent [⟨true, ["bin", "echo"]⟩, ⟨true, ["bin", "kill"]⟩] = some r →
      r = (⟨true, ["bin", "echo"]⟩ : PyPath).parent ∧
        ∀ p ∈ [(⟨true, ["bin", "echo"]⟩ : PyPath), ⟨true, ["bin", "kill"]⟩],
          p.parent = r) :=
  c4_common_parent ⟨true, ["bin", "echo"]⟩ [⟨true, ["bin", "kill"]⟩] (by decide)

/-- C5: the specification's concrete cases, on the concrete example
filesystem (root `/`, files `/usr/local/bin/bbedit`, `/usr/bin/rez`,
`/usr/lib/x`, `/usr/local/y`, directory `/bin` with files `echo`, `kill`,
`ls`). -/
theorem c5_concrete_cases :
    common_root exFS ⟨true, ["usr", "local", "bin", "bbedit"]⟩
        ⟨true, ["usr", "bin", "rez"]⟩ = some ⟨true, ["usr"]⟩ ∧
    common_ancestor exFS
        [⟨true, ["bin", "echo"]⟩, ⟨true, ["bin", "kill"]⟩, ⟨true, ["bin", "ls"]⟩] =
      some ⟨true, ["bin"]⟩ ∧
    common_parent [⟨true, ["bin", "echo"]⟩, ⟨true, ["bin", "kill"]⟩] =
      some ⟨true, ["bin"]⟩ ∧
    common_parent [⟨true, ["usr", "lib", "x"]⟩, ⟨true, ["usr", "local", "y"]⟩] =
      none ∧
    common_ancestor exFS
        [⟨true, ["usr", "lib", "x"]⟩, ⟨true, ["usr", "local", "y"]⟩] =
      some ⟨true, ["usr"]⟩ := by
  decide

/-- C6 counterexample: on the filesystem whose only directory is `/`, the
absolute-path sequences `[/u/a/f, /u/a/f, /u/b/g]` and
`[/u/a/f, /u/b/g, /u/a/f]` are permutations of each other, yet
`common_ancestor` returns `/u` on the first and `/` on the second. -/
theorem c6_counterexample :
    List.Perm
      [(⟨true, ["u", "a", "f"]⟩ : PyPath), ⟨true, ["u", "a", "f"]⟩,
        ⟨true, ["u", "b", "g"]⟩]
      [(⟨true, ["u", "a", "f"]⟩ : PyPath), ⟨true, ["u", "b", "g"]⟩,
        ⟨true, ["u", "a", "f"]⟩] ∧
    (∀ p ∈ [(⟨true, ["u", "a", "f"]⟩ : PyPath), ⟨true, ["u", "a", "f"]⟩,
        ⟨true, ["u", "b", "g"]⟩], p.isAbs = true) ∧
    common_ancestor rootOnlyFS
        [⟨true, ["u", "a", "f"]⟩, ⟨true, ["u", "a", "f"]⟩,
          ⟨true, ["u", "b", "g"]⟩] ≠
      common_ancestor rootOnlyFS
        [⟨true, ["u", "a", "f"]⟩, ⟨true, ["u", "b", "g"]⟩,
          ⟨true, ["u", "a", "f"]⟩] := by
  refine ⟨List.Perm.cons _ (List.Perm.swap _ _ _), by decide, by decide⟩

theorem lcpStep_comm (b : Option (List String)) (s1 s2 : List String) :
    lcpStep (lcpStep b s1) s2 = lcpStep (lcpStep b s2) s1 := by
  cases b with
  | none =>
    show some (lcp s1 s2) = some (lcp s2 s1)
    rw [lcp_comm s1 s2]
  | some t =>
    show some (lcp (lcp t s1) s2) = some (lcp (lcp t s2) s1)
    rw [lcp_assoc, lcp_assoc, lcp_comm s1 s2]

theorem foldl_lcpStep_perm {l1 l2 : List (List String)}
    (h : List.Perm l1 l2) :
    ∀ b, List.foldl lcpStep b l1 = List.foldl lcpStep b l2 := by
  induction h with
  | nil => intro b; rfl
  | cons x _ ih => intro b; simp only [List.foldl_cons]; exact ih _
  | swap x y l => intro b; simp only [List.foldl_cons]; rw [lcpStep_comm b y x]
  | trans _ _ ih1 ih2 => intro b; rw [ih1 b, ih2 b]

theorem caGo_lcp (fs : FS)
    (hclosed : ∀ (s : List String) (n : Nat),
      fs.isDir ⟨true, s⟩ = true → fs.isDir ⟨true, s.take n⟩ = true) :
    ∀ (l : List PyPath) (c : List String),
      fs.isDir ⟨true, c⟩ = true →
      (∀ p ∈ l, p.isAbs = true ∧ fs.isDir (normPath fs p) = true) →
      caGo fs (some ⟨true, c⟩) l =
        ((l.map fun p => (normPath fs p).segs).foldl lcpStep (some c)).map
          (fun s => (⟨true, s⟩ : PyPath)) := by
  intro l
  induction l with
  | nil => intro c _ _; rfl
  | cons p rest ih =>
    intro c hc h
    obtain ⟨hp_abs, hp_dir⟩ := h p (List.mem_cons_self p rest)
    have hrest := fun q hq => h q (List.mem_cons_of_mem p hq)
    have hq_abs : (normPath fs p).isAbs = true := by
      rw [normPath_isAbs]; exact hp_abs
    have hqeta : (⟨true, (normPath fs p).segs⟩ : PyPath) = normPath fs p := by
      rw [← hq_abs]
    by_cases hceq : (⟨true, c⟩ : PyPath) = normPath fs p
    · simp only [caGo, if_pos hceq, List.map_cons, List.foldl_cons]
      have hsegs : (normPath fs p).segs = c := (congrArg PyPath.segs hceq).symm
      rw [hsegs]
      have hstep : lcpStep (some c) c = some c := by
        show some (lcp c c) = some c
        rw [lcp_self]
      rw [hstep]
      exact ih c hc hrest
    · simp only [caGo, if_neg hceq, List.map_cons, List.foldl_cons]
      have hcr : common_root fs ⟨true, c⟩ (normPath fs p) =
          some ⟨true, lcp c (normPath fs p).segs⟩ :=
        common_root_dirs fs ⟨true, c⟩ (normPath fs p) rfl hq_abs hc hp_dir
      rw [hcr]
      have hnew : fs.isDir ⟨true, lcp c (normPath fs p).segs⟩ = true := by
        rw [lcp_take]
        apply hclosed
        rw [hqeta]
        exact hp_dir
      have hstep : lcpStep (some c) (normPath fs p).segs =
          some (lcp c (normPath fs p).segs) := rfl
      rw [hstep]
      exact ih (lcp c (normPath fs p).segs) hnew hrest

theorem common_ancestor_lcp (fs : FS)
    (hclosed : ∀ (s : List String) (n : Nat),
      fs.isDir ⟨true, s⟩ = true → fs.isDir ⟨true, s.take n⟩ = true)
    (l : List PyPath)
    (h : ∀ p ∈ l, p.isAbs = true ∧ fs.isDir (normPath fs p) = true) :
    common_ancestor fs l =
      ((l.map fun p => (normPath fs p).segs).foldl lcpStep none).map
        (fun s => (⟨true, s⟩ : PyPath)) := by
  cases l with
  | nil => rfl
  | cons p rest =>
    obtain ⟨hp_abs, hp_dir⟩ := h p (List.mem_cons_self p rest)
    have hrest := fun q hq => h q (List.mem_cons_of_mem p hq)
    have hq_abs : (normPath fs p).isAbs = true := by
      rw [normPath_isAbs]; exact hp_abs
    have hqeta : (⟨true, (normPath fs p).segs⟩ : PyPath) = normPath fs p := by
      rw [← hq_abs]
    have hdir : fs.isDir ⟨true, (normPath fs p).segs⟩ = true := by
      rw [hqeta]; exact hp_dir
    have h1 : common_ancestor fs (p :: rest) =
        caGo fs (some (normPath fs p)) rest := rfl
    rw [h1, ← hqeta, caGo_lcp fs hclosed rest (normPath fs p).segs hdir hrest]
    simp only [List.map_cons, List.foldl_cons]
    rfl

/-- C6 (amended): `common_ancestor` yields the same result on any
permutation of the sequence, provided every path is absolute and
normalizes to a directory (is itself a directory, or is a file whose
parent is a directory), on a filesystem in which every ancestor of a
directory is a directory.  Without these conditions permutations can
disagree (see the counterexample). -/
theorem c6_common_ancestor_perm (fs : FS) (l1 l2 : List PyPath)
    (hperm : List.Perm l1 l2)
    (hclosed : ∀ (s : List String) (n : Nat),
      fs.isDir ⟨true, s⟩ = true → fs.isDir ⟨true, s.take n⟩ = true)
    (h : ∀ p ∈ l1, p.isAbs = true ∧ fs.isDir (normPath fs p) = true) :
    common_ancestor fs l1 = common_ancestor fs l2 := by
  have h2 : ∀ p ∈ l2, p.isAbs = true ∧ fs.isDir (normPath fs p) = true :=
    fun p hp => h p (hperm.mem_iff.mpr hp)
  rw [common_ancestor_lcp fs hclosed l1 h, common_ancestor_lcp fs hclosed l2 h2]
  congr 1
  exact foldl_lcpStep_perm (hperm.map _) none

/-- C6 witness: two concrete absolute directories on the all-directories
filesystem; swapping them does not change `common_ancestor`. -/
theorem c6_witness :
    common_ancestor allDirFS [⟨true, ["a"]⟩, ⟨true, ["b"]⟩] =
      common_ancestor allDirFS [⟨true, ["b"]⟩, ⟨true, ["a"]⟩] :=
  c6_common_ancestor_perm allDirFS _ _ (List.Perm.swap _ _ _)
    (fun _ _ _ => rfl) (by decide)

/-- C8: when the root is not a directory, `tree(root)` yields exactly one
line — the root's own name, with no connector and no further lines — at
any recursion budget. -/
theorem c8_tree_nondir (fs : FS) (fuel : Nat) (root : PyPath)
    (h : fs.isDir root = false) :
    tree fs fuel root "" = [root.name] := by
  cases fuel with
  | zero => simp [tree, h]
  | succ n => simp [tree, h]

/-- C8 witness: the file `/usr/bin/rez` on the concrete example
filesystem. -/
theorem c8_witness :
    tree exFS 3 ⟨true, ["usr", "bin", "rez"]⟩ "" =
      [(⟨true, ["usr", "bin", "rez"]⟩ : PyPath).name] :=
  c8_tree_nondir exFS 3 ⟨true, ["usr", "bin", "rez"]⟩ (by decide)

theorem getLast?_cons_eq (e : Nat × Nat) (rest : List (Nat × Nat)) :
    (e :: rest).getLast? = some (rest.getLast?.getD e) := by
  induction rest generalizing e with
  | nil => rfl
  | cons y t ih =>
    rw [List.getLast?_cons_cons, ih y]
    simp

theorem deliver_run : ∀ (events : List (Nat × Nat)) (s : ProcState),
    s.installed = SigHandler.guardH →
    events.foldl deliverSignal s =
      ⟨SigHandler.guardH,
        ⟨match events with
          | [] => s.guard.signal_received
          | e :: rest => some (rest.getLast?.getD e)⟩,
        s.oldCalls⟩ := by
  intro events
  induction events with
  | nil =>
    intro s h
    cases s with
    | mk inst g calls =>
      cases g with
      | mk sr =>
        simp only at h
        subst h
        rfl
  | cons e rest ih =>
    intro s h
    rw [List.foldl_cons]
    have hd : deliverSignal s e = ⟨SigHandler.guardH, ⟨some e⟩, s.oldCalls⟩ := by
      cases s with
      | mk inst g calls =>
        simp only at h
        subst h
        simp [deliverSignal, DelayedKeyboardInterrupt.handler]
    rw [hd, ih _ rfl]
    cases rest with
    | nil => rfl
    | cons y t =>
      have hg := getLast?_cons_eq y t
      simp only [hg, Option.getD_some]

/-- C1: while the guard is armed the previously installed handler is never
invoked (the protected block runs unobserved); on exit the installed
handler is the previously installed one; and the previous handler is
re-invoked exactly once when at least one interrupt arrived while armed,
and not at all when none arrived. -/
theorem c1_guard (events : List (Nat × Nat)) :
    ((events.foldl deliverSignal (enterGuard initState).1).oldCalls = [] ∧
      (runGuarded events).installed = (enterGuard initState).2) ∧
    (events = [] → (runGuarded events).oldCalls = []) ∧
    (events ≠ [] → (runGuarded events).oldCalls.length = 1) := by
  have hrun := deliver_run events (enterGuard initState).1 rfl
  have hR : runGuarded events =
      exitGuard (events.foldl deliverSignal (enterGuard initState).1)
        (enterGuard initState).2 := rfl
  rw [hR, hrun]
  refine ⟨⟨rfl, ?_⟩, ?_, ?_⟩
  · cases events <;> rfl
  · intro he; subst he; rfl
  · intro he
    cases events with
    | nil => exact absurd rfl he
    | cons e rest => rfl

/-- C1 witness: two interrupts delivered while armed; the previous handler
runs exactly once after exit. -/
theorem c1_witness : (runGuarded [(2, 5), (2, 7)]).oldCalls.length = 1 :=
  (c1_guard [(2, 5), (2, 7)]).2.2 (by decide)

/-- C10: when at least one interrupt arrives while armed, successive
deliveries overwrite the single pending record, and on exit the previous
handler is re-invoked exactly once with the arguments of the most recent
delivery. -/
theorem c10_guard (events : List (Nat × Nat)) (h : events ≠ []) :
    (runGuarded events).oldCalls = [events.getLast h] ∧
    (events.foldl deliverSignal (enterGuard initState).1).guard.signal_received =
      some (events.getLast h) := by
  have hrun := deliver_run events (enterGuard initState).1 rfl
  have hR : runGuarded events =
      exitGuard (events.foldl deliverSignal (enterGuard initState).1)
        (enterGuard initState).2 := rfl
  cases events with
  | nil => exact absurd rfl h
  | cons e rest =>
    rw [hR, hrun]
    have hlast : (e :: rest).getLast h = rest.getLast?.getD e := by
      have h2 := getLast?_cons_eq e rest
      rw [List.getLast?_eq_getLast (e :: rest) h] at h2
      exact Option.some.inj h2
    rw [hlast]
    exact ⟨rfl, rfl⟩

/-- C10 witness: two interrupts (2, 5) then (2, 7); the single re-delivery
carries the most recent one, (2, 7). -/
theorem c10_witness : (runGuarded [(2, 5), (2, 7)]).oldCalls = [(2, 7)] :=
  ((c10_guard [(2, 5), (2, 7)] (by decide)).1).trans (by decide)
